import Mathlib

/-!
Verification of the FROC evaluation core of `compute_FROC.py`
(breast-mass localization on the BCDR dataset).

Images are modelled as total functions on a finite pixel grid
`Pos H W = Fin H × Fin W`.  Heatmaps carry values in a linear ordered
field (instantiated at `ℝ` for the real logit ladder and at `ℚ` for
concrete executable test cases); label and segmentation masks carry
natural-number pixel values.  `scipy.ndimage.label` with the all-ones
3×3 structuring element (8-connectivity) is modelled by an executable
connected-component extraction: a dilation fixpoint grows a seed pixel
into its maximal 8-connected cluster, and pixels are scanned in row-major
order so each not-yet-labelled masked pixel starts a new region.  Python
float arithmetic on overlap ratios is modelled by exact rational
arithmetic; a numpy division whose denominator is zero (which numpy
coerces to NaN/Inf and the script never checks) is modelled as
`Option.none`.
-/

namespace Froc

/-- A pixel position in an `H × W` image grid. -/
abbrev Pos (H W : Nat) := Fin H × Fin W

/-- Absolute difference of naturals, used for the 8-neighbourhood test. -/
def natDist (a b : Nat) : Nat := max a b - min a b

/-- 8-connectivity (the `[[1,1,1],[1,1,1],[1,1,1]]` structuring element of
`ndimage.label`): two distinct pixels are adjacent when both coordinates
differ by at most one. -/
def adjacent {H W : Nat} (p q : Pos H W) : Bool :=
  decide (p ≠ q) && decide (natDist p.1.val q.1.val ≤ 1)
    && decide (natDist p.2.val q.2.val ≤ 1)

/-- One dilation step: add every masked pixel adjacent to the current set. -/
def grow {H W : Nat} (mask : Pos H W → Bool) (S : Finset (Pos H W)) :
    Finset (Pos H W) :=
  S ∪ Finset.univ.filter (fun q => mask q = true ∧ ∃ p ∈ S, adjacent p q = true)

/-- Fuelled dilation fixpoint; stops as soon as the set is stable. -/
def compAux {H W : Nat} (mask : Pos H W → Bool) :
    Nat → Finset (Pos H W) → Finset (Pos H W)
  | 0, S => S
  | fuel + 1, S =>
    let S' := grow mask S
    if S' = S then S else compAux mask fuel S'

/-- The maximal 8-connected cluster of masked pixels containing `p`
(the region of `p` as labelled by `ndimage.label`).  `H * W + 1` dilation
steps always reach the fixpoint. -/
def component {H W : Nat} (mask : Pos H W → Bool) (p : Pos H W) :
    Finset (Pos H W) :=
  compAux mask (H * W + 1) {p}

/-- All pixel positions of the grid in row-major (scanning) order. -/
def allPositions (H W : Nat) : List (Pos H W) :=
  (List.finRange H).flatMap (fun i => (List.finRange W).map (fun j => (i, j)))

/-- Scan the pixels in order; each masked pixel not yet assigned to a region
starts a new region (its full 8-connected component). -/
def regionsScan {H W : Nat} (mask : Pos H W → Bool) :
    List (Pos H W) → Finset (Pos H W) → List (Finset (Pos H W))
  | [], _ => []
  | p :: ps, visited =>
    if mask p = true ∧ p ∉ visited then
      component mask p :: regionsScan mask ps (visited ∪ component mask p)
    else regionsScan mask ps visited

/-- The list of 8-connected regions of the masked pixels: the partition
computed by `ndimage.label(mask, [[1,1,1],[1,1,1],[1,1,1]])`, as a list of
pixel sets in first-encounter order (its length is the returned number of
features). -/
def regions {H W : Nat} (mask : Pos H W → Bool) : List (Finset (Pos H W)) :=
  regionsScan mask (allPositions H W) ∅

/-- `np.logical_and(lesions == lesion_id, segmentation == 255).sum()`:
the number of pixels of region `r` that the segmentation marks `255`. -/
def overlapArea {H W : Nat} (r : Finset (Pos H W)) (seg : Pos H W → Nat) : Nat :=
  (r.filter (fun p => seg p = 255)).card

/-- The module-level constant `ACCEPTANCE_RATIO = 0.1` of `compute_FROC.py`
(the fraction of a lesion's area that must be covered for a true positive).
Python's float `0.1` is modelled by the exact rational. -/
def acceptance_ratio_const : ℚ := 1 / 10

/-- The true-positive test of line 96:
`(overlap_area / lesion_area) >= ACCEPTANCE_RATIO`, with Python's float
division modelled by exact rational division. -/
def ratioPass (overlap area : Nat) : Bool :=
  decide (acceptance_ratio_const ≤ (overlap : ℚ) / (area : ℚ))

/-- Integer-only restatement of `ratioPass`, used to evaluate concrete
instances inside the kernel (`ratioPass_eq_ratioPassB` proves it equal). -/
def ratioPassB (overlap area : Nat) : Bool :=
  decide (area ≠ 0) && decide (area ≤ 10 * overlap)

/-- `post(logits, label, threshold)` (lines 17-41): start from `127`
everywhere, overwrite with `255` where `logits >= threshold` (inclusive),
then overwrite with `0` where `label == 0`.  The write order matters and is
kept: the background write comes last and wins. -/
def post {H W : Nat} {α : Type} [LinearOrderedField α]
    (logits : Pos H W → α) (label : Pos H W → Nat) (threshold : α) :
    Pos H W → Nat :=
  fun p =>
    let v0 : Nat := 127
    let v1 : Nat := if threshold ≤ logits p then 255 else v0
    if label p = 0 then 0 else v1

/-- `label.max()`: the maximum pixel value of a mask (`0` on an empty grid). -/
def labelMax {H W : Nat} (label : Pos H W → Nat) : Nat :=
  Finset.univ.sup label

/-- Python list/array indexing on a `List Nat`: a negative index counts from
the end (`FPs[-1]` is the last slot); out of range reads default to `0`. -/
def npGet (l : List Nat) (i : Int) : Nat :=
  if i < 0 then l.getD (l.length - (-i).toNat) 0 else l.getD i.toNat 0

/-- One iteration of the threshold loop of `compute_FROC` (lines 84-109),
acting on the state `(FPs, TPs, num_lesions)` at threshold index `i`:
build the segmentation; if `label.max() == 255` count the lesion regions
whose overlap ratio reaches `ACCEPTANCE_RATIO` into `TPs[i]` and record the
number of lesions; otherwise count the segmentation's `255`-regions into
`FPs[i]` and clamp `FPs[i]` up to `FPs[i-1]` (Python index `-1` wraps to the
last slot when `i = 0`). -/
def frocStep {H W : Nat} {α : Type} [LinearOrderedField α]
    (thresholds : List α) (logits : Pos H W → α) (label : Pos H W → Nat)
    (st : List Nat × List Nat × Nat) (i : Nat) : List Nat × List Nat × Nat :=
  let FPs := st.1
  let TPs := st.2.1
  let nl := st.2.2
  let seg := post logits label (thresholds.getD i 0)
  if labelMax label = 255 then
    let regs := regions (fun p => decide (label p = 255))
    let tp := regs.countP (fun r => ratioPass (overlapArea r seg) r.card)
    (FPs, TPs.set i (TPs.getD i 0 + tp), regs.length)
  else
    let raw := (regions (fun p => decide (seg p = 255))).length
    let FPs1 := FPs.set i (FPs.getD i 0 + raw)
    let FPs2 := if npGet FPs1 (i : Int) < npGet FPs1 ((i : Int) - 1)
      then FPs1.set i (npGet FPs1 ((i : Int) - 1)) else FPs1
    (FPs2, TPs, nl)

/-- The threshold sweep of `compute_FROC` run over an explicit list of
logit cutoffs: zero-initialized `FPs`/`TPs` arrays and `num_lesions = 0`,
then the loop body `frocStep` at each index in order.  The
`acceptance_ratio` argument is received exactly as in the source — whose
loop body reads the module constant `ACCEPTANCE_RATIO` instead of it. -/
def computeFROCwith {H W : Nat} {α : Type} [LinearOrderedField α]
    (thresholds : List α) (logits : Pos H W → α) (label : Pos H W → Nat)
    (acceptance_ratio : ℚ) : List Nat × List Nat × Nat :=
  (List.range thresholds.length).foldl (frocStep thresholds logits label)
    (List.replicate thresholds.length 0, List.replicate thresholds.length 0, 0)

/-- Copy of `frocStep` with the kernel-evaluable true-positive test. -/
def frocStepB {H W : Nat} {α : Type} [LinearOrderedField α]
    (thresholds : List α) (logits : Pos H W → α) (label : Pos H W → Nat)
    (st : List Nat × List Nat × Nat) (i : Nat) : List Nat × List Nat × Nat :=
  let FPs := st.1
  let TPs := st.2.1
  let nl := st.2.2
  let seg := post logits label (thresholds.getD i 0)
  if labelMax label = 255 then
    let regs := regions (fun p => decide (label p = 255))
    let tp := regs.countP (fun r => ratioPassB (overlapArea r seg) r.card)
    (FPs, TPs.set i (TPs.getD i 0 + tp), regs.length)
  else
    let raw := (regions (fun p => decide (seg p = 255))).length
    let FPs1 := FPs.set i (FPs.getD i 0 + raw)
    let FPs2 := if npGet FPs1 (i : Int) < npGet FPs1 ((i : Int) - 1)
      then FPs1.set i (npGet FPs1 ((i : Int) - 1)) else FPs1
    (FPs2, TPs, nl)

/-- Copy of `computeFROCwith` with the kernel-evaluable true-positive test. -/
def computeFROCwithB {H W : Nat} {α : Type} [LinearOrderedField α]
    (thresholds : List α) (logits : Pos H W → α) (label : Pos H W → Nat)
    (acceptance_ratio : ℚ) : List Nat × List Nat × Nat :=
  (List.range thresholds.length).foldl (frocStepB thresholds logits label)
    (List.replicate thresholds.length 0, List.replicate thresholds.length 0, 0)

/-- `np.linspace(a, b, n)`: `n` evenly spaced samples from `a` to `b`
inclusive (`[a]` when `n = 1`, empty when `n = 0`). -/
def linspace {α : Type} [Field α] (a b : α) (n : Nat) : List α :=
  if n = 1 then [a]
  else (List.range n).map
    (fun (i : Nat) => a + ((b - a) / ((n : α) - 1)) * (i : α))

/-- `prob2logit`: `log(p) - log(1 - p)` (line 74). -/
noncomputable def logit (p : ℝ) : ℝ := Real.log p - Real.log (1 - p)

/-- The threshold ladder of `compute_FROC` (lines 72-74):
`np.linspace(0.9999, 0.0001, num_thresholds)` mapped through the logit
transform.  `0.9999` and `0.0001` are written as exact rationals. -/
noncomputable def thresholdLadder (num_thresholds : Nat) : List ℝ :=
  (linspace ((9999 : ℝ) / 10000) ((1 : ℝ) / 10000) num_thresholds).map logit

/-- `compute_FROC(logits, label, num_thresholds, acceptance_ratio)`
(lines 43-111): the threshold sweep over the logit ladder, returning
`(FPs, TPs, num_lesions)`. -/
noncomputable def compute_FROC {H W : Nat} (logits : Pos H W → ℝ)
    (label : Pos H W → Nat) (num_thresholds : Nat) (acceptance_ratio : ℚ) :
    List Nat × List Nat × Nat :=
  computeFROCwith (thresholdLadder num_thresholds) logits label acceptance_ratio

/-- Closed form of the sequential FP clamp of lines 106-109: each raw count
is replaced by the previous, already-clamped value whenever it is smaller
(`prev` is the clamped value of the preceding slot, `0` before the first). -/
def clampFrom (prev : Nat) : List Nat → List Nat
  | [] => []
  | r :: rs =>
    (if r < prev then prev else r) :: clampFrom (if r < prev then prev else r) rs

/-- The true-positive count written into `TPs[threshold]` by the lesion
branch (lines 86-97) at one threshold value. -/
def tpCountAt {H W : Nat} {α : Type} [LinearOrderedField α]
    (logits : Pos H W → α) (label : Pos H W → Nat) (t : α) : Nat :=
  (regions (fun p => decide (label p = 255))).countP
    (fun r => ratioPass (overlapArea r (post logits label t)) r.card)

/-- The raw false-positive count of the no-lesion branch (lines 101-105) at
one threshold value: the number of 8-connected `255`-regions of the
segmentation. -/
def rawFPAt {H W : Nat} {α : Type} [LinearOrderedField α]
    (logits : Pos H W → α) (label : Pos H W → Nat) (t : α) : Nat :=
  (regions (fun p => decide (post logits label t p = 255))).length

/-- The module-level constant `NUM_THRESHOLDS = 50` used by `main` to size
its accumulator arrays (lines 13, 141-142). -/
def numThresholdsConst : Nat := 50

/-- numpy's elementwise `+=` on two accumulator arrays. -/
def addVec (a b : List ℚ) : List ℚ := List.zipWith (· + ·) a b

/-- One iteration of `main`'s dataset loop (lines 158-173): run
`compute_FROC` on the image, add the per-image `FPs`/`TPs` into the float
accumulator arrays, add the lesion count, and count the image as normal
when it has no lesions. -/
noncomputable def accumStep {H W : Nat} (num_thresholds : Nat)
    (acceptance_ratio : ℚ) (st : List ℚ × List ℚ × Nat × Nat)
    (img : (Pos H W → ℝ) × (Pos H W → Nat)) : List ℚ × List ℚ × Nat × Nat :=
  let res := compute_FROC img.1 img.2 num_thresholds acceptance_ratio
  (addVec st.1 (res.1.map (fun k => (k : ℚ))),
   addVec st.2.1 (res.2.1.map (fun k => (k : ℚ))),
   st.2.2.1 + res.2.2,
   st.2.2.2 + (if res.2.2 = 0 then 1 else 0))

/-- `main`'s accumulation pass over the dataset (lines 141-173): fold
`accumStep` over the images starting from zeroed totals
`(FPs, TPs, num_lesions, num_normal_images)` (the arrays are sized by the
module constant `NUM_THRESHOLDS`, as in the source). -/
noncomputable def accumulate {H W : Nat} (num_thresholds : Nat)
    (acceptance_ratio : ℚ)
    (images : List ((Pos H W → ℝ) × (Pos H W → Nat))) :
    List ℚ × List ℚ × Nat × Nat :=
  images.foldl (accumStep num_thresholds acceptance_ratio)
    (List.replicate numThresholdsConst 0, List.replicate numThresholdsConst 0,
      0, 0)

/-- numpy float division of an accumulator entry by an integer count:
a zero denominator silently yields NaN or Inf (a warning, not an error),
modelled as `none`; otherwise the exact quotient. -/
def npDiv (x : ℚ) (d : Nat) : Option ℚ :=
  if d = 0 then none else some (x / (d : ℚ))

/-- The finalization step of `main` (lines 175-177):
`sensitivity = TPs/num_lesions` and `FP_per_image = FPs/num_normal_images`,
computed unconditionally from the totals `(FPs, TPs, num_lesions,
num_normal_images)`; entries divided by a zero count are the silent
NaN/Inf marker `none`. -/
def finalizeTotals (st : List ℚ × List ℚ × Nat × Nat) :
    List (Option ℚ) × List (Option ℚ) :=
  (st.2.1.map (fun x => npDiv x st.2.2.1), st.1.map (fun x => npDiv x st.2.2.2))

/-- Concrete 10×10 test label: every pixel is a lesion pixel, so the label
has exactly one 8-connected lesion region of area `100`. -/
def lab10x10 : Pos 10 10 → Nat := fun _ => 255

/-- Concrete 10×10 heatmap whose pixels with logit `1` (the first nine
pixels of row 0) will be exactly the `255` overlap at threshold `1`. -/
def heat9 : Pos 10 10 → ℚ := fun p => if p.1.val = 0 ∧ p.2.val ≤ 8 then 1 else 0

/-- Concrete 10×10 heatmap with ten pixels at logit `1` (all of row 0). -/
def heat10 : Pos 10 10 → ℚ :=
  fun p => if p.1.val = 0 ∧ p.2.val ≤ 9 then 1 else 0

/-- Concrete 1×2 test label: one lesion region of area `2`. -/
def lab1x2 : Pos 1 2 → Nat := fun _ => 255

/-- Concrete 1×2 heatmap: only the first pixel reaches threshold `0`, so the
overlap with the lesion is `1` of `2` pixels (ratio `1/2`). -/
def heat1x2 : Pos 1 2 → ℚ := fun p => if p.2.val = 0 then 1 else -1

/-- Concrete 1×1 lesion-bearing dataset image (heatmap, label). -/
def imgLesion : (Pos 1 1 → ℝ) × (Pos 1 1 → Nat) := (fun _ => 0, fun _ => 255)

/-- Concrete 1×1 lesion-free dataset image (heatmap, label). -/
def imgNormal : (Pos 1 1 → ℝ) × (Pos 1 1 → Nat) := (fun _ => 0, fun _ => 127)

/-! ## Theorems -/

/-- The rational-division acceptance test agrees with its integer form:
for `area ≠ 0`, `1/10 ≤ overlap/area` iff `area ≤ 10·overlap`; for
`area = 0` the quotient is `0` in `ℚ` and both sides are `false`. -/
theorem ratioPass_eq_ratioPassB (overlap area : Nat) :
    ratioPass overlap area = ratioPassB overlap area := by
  unfold ratioPass ratioPassB acceptance_ratio_const
  rcases Nat.eq_zero_or_pos area with h | h
  · subst h
    norm_num
  · have ha : (0 : ℚ) < (area : ℚ) := by exact_mod_cast h
    have hne : area ≠ 0 := Nat.pos_iff_ne_zero.mp h
    have h1 : decide (area ≠ 0) = true := by simp [hne]
    rw [h1, Bool.true_and, decide_eq_decide, le_div_iff₀ ha]
    constructor
    · intro hle
      have : (area : ℚ) ≤ 10 * (overlap : ℚ) := by linarith
      exact_mod_cast this
    · intro hle
      have : (area : ℚ) ≤ 10 * (overlap : ℚ) := by exact_mod_cast hle
      linarith

/-- `frocStep` and its integer-test copy agree. -/
theorem frocStep_eq_frocStepB {H W : Nat} {α : Type} [LinearOrderedField α]
    (thresholds : List α) (logits : Pos H W → α) (label : Pos H W → Nat) :
    frocStep thresholds logits label = frocStepB thresholds logits label := by
  funext st i
  simp only [frocStep, frocStepB, ratioPass_eq_ratioPassB]

/-- `computeFROCwith` and its integer-test copy agree. -/
theorem computeFROCwith_eq_B {H W : Nat} {α : Type} [LinearOrderedField α]
    (thresholds : List α) (logits : Pos H W → α) (label : Pos H W → Nat)
    (acceptance_ratio : ℚ) :
    computeFROCwith thresholds logits label acceptance_ratio
      = computeFROCwithB thresholds logits label acceptance_ratio := by
  simp only [computeFROCwith, computeFROCwithB, frocStep_eq_frocStepB]

/-- `getLastD` of a nonempty list ignores the default. -/
theorem getLastD_of_ne_nil {C : List Nat} (h : C ≠ []) (a b : Nat) :
    C.getLastD a = C.getLastD b := by
  cases C with
  | nil => cases h rfl
  | cons x t => rw [List.getLastD_cons, List.getLastD_cons]

/-- Reading a nonempty list at its last index is `getLastD`. -/
theorem getD_last_index {C : List Nat} (d : Nat) (h : C ≠ []) :
    C.getD (C.length - 1) d = C.getLastD d := by
  induction C generalizing d with
  | nil => cases h rfl
  | cons a l ih =>
    cases l with
    | nil => rfl
    | cons b t =>
      have hne : b :: t ≠ [] := by simp
      have hl : (a :: b :: t).length - 1 = (b :: t).length - 1 + 1 := by
        simp
      rw [hl]
      show (b :: t).getD ((b :: t).length - 1) d = _
      rw [ih d hne]
      conv_rhs => rw [List.getLastD_cons]
      exact getLastD_of_ne_nil hne d a

/-- `clampFrom` preserves length. -/
theorem clampFrom_length (p : Nat) (l : List Nat) :
    (clampFrom p l).length = l.length := by
  induction l generalizing p with
  | nil => rfl
  | cons r rs ih => simp [clampFrom, ih]

/-- Appending one raw count to the clamp ladder appends its clamped value,
computed from the ladder's current last entry. -/
theorem clampFrom_snoc (p : Nat) (l : List Nat) (r : Nat) :
    clampFrom p (l ++ [r]) =
      clampFrom p l ++
        [if r < (clampFrom p l).getLastD p then (clampFrom p l).getLastD p
         else r] := by
  induction l generalizing p with
  | nil => simp [clampFrom]
  | cons a t ih =>
    simp only [List.cons_append, clampFrom, List.getLastD_cons]
    rw [show t.append [r] = t ++ [r] from rfl, ih]

/-- The clamp ladder is a `≤`-chain from its seed value. -/
theorem clampFrom_chain (p : Nat) (l : List Nat) :
    List.Chain (· ≤ ·) p (clampFrom p l) := by
  induction l generalizing p with
  | nil => exact List.Chain.nil
  | cons r rs ih =>
    refine List.Chain.cons ?_ (ih _)
    by_cases h : r < p <;> simp [h]
    omega

/-- The clamp ladder is pairwise monotone. -/
theorem clampFrom_pairwise (p : Nat) (l : List Nat) :
    List.Pairwise (· ≤ ·) (clampFrom p l) := by
  have h := clampFrom_chain p l
  have h2 : List.Chain' (· ≤ ·) (p :: clampFrom p l) := h
  rw [List.chain'_iff_pairwise] at h2
  exact (List.pairwise_cons.mp h2).2

/-- Entries of the clamp ladder never decrease along the list. -/
theorem clampFrom_getD_mono (p : Nat) (l : List Nat) {i j : Nat}
    (hij : i ≤ j) (hj : j < (clampFrom p l).length) :
    (clampFrom p l).getD i 0 ≤ (clampFrom p l).getD j 0 := by
  rcases Nat.lt_or_ge i j with hlt | hge
  · have hi : i < (clampFrom p l).length := lt_trans hlt hj
    rw [List.getD_eq_getElem _ _ hi, List.getD_eq_getElem _ _ hj]
    exact List.pairwise_iff_getElem.mp (clampFrom_pairwise p l) i j hi hj hlt
  · have : i = j := le_antisymm hij hge
    subst this
    exact le_refl _

/-- The first entry of the clamp ladder is the first raw count, unclamped. -/
theorem clampFrom_zero_getD_zero (l : List Nat) :
    (clampFrom 0 l).getD 0 0 = l.getD 0 0 := by
  cases l with
  | nil => rfl
  | cons r rs => simp [clampFrom]

/-- If every pixel value is at most `255` and some pixel is `255`, then
`label.max() == 255`. -/
theorem labelMax_eq_255 {H W : Nat} {label : Pos H W → Nat}
    (hle : ∀ p, label p ≤ 255) (hex : ∃ p, label p = 255) :
    labelMax label = 255 := by
  obtain ⟨p, hp⟩ := hex
  refine le_antisymm (Finset.sup_le fun q _ => hle q) ?_
  calc (255 : Nat) = label p := hp.symm
    _ ≤ labelMax label := Finset.le_sup (Finset.mem_univ p)

/-- If no pixel is `255`, then `label.max() ≠ 255`. -/
theorem labelMax_ne_255 {H W : Nat} {label : Pos H W → Nat}
    (hno : ¬ ∃ p, label p = 255) : labelMax label ≠ 255 := by
  intro hmax
  rcases (Finset.univ : Finset (Pos H W)).eq_empty_or_nonempty with hU | hU
  · rw [labelMax, hU, Finset.sup_empty] at hmax
    exact absurd hmax (by decide)
  · obtain ⟨b, _, hb⟩ := Finset.exists_mem_eq_sup Finset.univ hU label
    refine hno ⟨b, ?_⟩
    rw [← hb]
    exact hmax

/-- Reading a mapped index range below its length. -/
theorem getD_range_map (f : Nat → Nat) {n i : Nat} (h : i < n) :
    ((List.range n).map f).getD i 0 = f i := by
  have hb : i < ((List.range n).map f).length := by
    simpa using h
  rw [List.getD_eq_getElem _ _ hb]
  simp

/-- Reading a replicated list always yields the replicated value. -/
theorem getD_replicate {β : Type} (m k : Nat) (d : β) :
    (List.replicate m d).getD k d = d := by
  induction m generalizing k with
  | zero => rfl
  | succ m ih =>
    cases k with
    | zero => rfl
    | succ k => simpa [List.replicate_succ] using ih k

/-- The lesion branch of one loop iteration, in closed form. -/
theorem frocStep_lesion {H W : Nat} {α : Type} [LinearOrderedField α]
    (ts : List α) (logits : Pos H W → α) (label : Pos H W → Nat)
    (A B : List Nat) (c : Nat) (i : Nat)
    (hmax : labelMax label = 255) :
    frocStep ts logits label (A, B, c) i =
      (A, B.set i (B.getD i 0 + tpCountAt logits label (ts.getD i 0)),
       (regions (fun p => decide (label p = 255))).length) := by
  simp only [frocStep, tpCountAt, if_pos hmax]

/-- The no-lesion branch of one loop iteration, in closed form. -/
theorem frocStep_nolesion {H W : Nat} {α : Type} [LinearOrderedField α]
    (ts : List α) (logits : Pos H W → α) (label : Pos H W → Nat)
    (A B : List Nat) (c : Nat) (i : Nat)
    (hmax : labelMax label ≠ 255) :
    frocStep ts logits label (A, B, c) i =
      (if npGet (A.set i (A.getD i 0 + rawFPAt logits label (ts.getD i 0)))
            (i : Int) <
          npGet (A.set i (A.getD i 0 + rawFPAt logits label (ts.getD i 0)))
            ((i : Int) - 1)
       then (A.set i (A.getD i 0 + rawFPAt logits label (ts.getD i 0))).set
          i (npGet (A.set i
              (A.getD i 0 + rawFPAt logits label (ts.getD i 0)))
            ((i : Int) - 1))
       else A.set i (A.getD i 0 + rawFPAt logits label (ts.getD i 0)),
       B, c) := by
  simp only [frocStep, rawFPAt, if_neg hmax]

/-- Characterization of the threshold sweep on a lesion-bearing image
(`label.max() == 255`): `FPs` stays identically zero, `TPs[i]` is the
per-threshold true-positive count, and the returned lesion count is the
number of 8-connected lesion regions (or `0` if the loop never ran). -/
theorem computeFROCwith_lesion {H W : Nat} {α : Type} [LinearOrderedField α]
    (ts : List α) (logits : Pos H W → α) (label : Pos H W → Nat) (r : ℚ)
    (hmax : labelMax label = 255) :
    computeFROCwith ts logits label r =
      (List.replicate ts.length 0,
       (List.range ts.length).map
         (fun i => tpCountAt logits label (ts.getD i 0)),
       if ts.length = 0 then 0
       else (regions (fun p => decide (label p = 255))).length) := by
  have key : ∀ k, k ≤ ts.length →
      (List.range k).foldl (frocStep ts logits label)
        (List.replicate ts.length 0, List.replicate ts.length 0, 0) =
      (List.replicate ts.length 0,
       (List.range k).map (fun i => tpCountAt logits label (ts.getD i 0))
         ++ List.replicate (ts.length - k) 0,
       if k = 0 then 0
       else (regions (fun p => decide (label p = 255))).length) := by
    intro k
    induction k with
    | zero => intro _; simp
    | succ k ih =>
      intro hk1
      have hkn : k < ts.length := hk1
      have hlen : ((List.range k).map
          (fun i => tpCountAt logits label (ts.getD i 0))).length = k := by
        simp
      have hrep : ts.length - k = (ts.length - (k + 1)) + 1 := by omega
      rw [List.range_succ, List.foldl_append, ih (Nat.le_of_lt hkn),
        List.foldl_cons, List.foldl_nil,
        frocStep_lesion ts logits label _ _ _ k hmax,
        List.map_append]
      refine congrArg₂ Prod.mk rfl (congrArg₂ Prod.mk ?_ ?_)
      · have e1 : ((List.range k).map
              (fun i => tpCountAt logits label (ts.getD i 0))
              ++ List.replicate (ts.length - k) 0).getD k 0 = 0 := by
          rw [List.getD_append_right _ _ _ _ (le_of_eq hlen), hlen,
            Nat.sub_self, hrep, List.replicate_succ, List.getD_cons_zero]
        have e2 : ∀ v, ((List.range k).map
              (fun i => tpCountAt logits label (ts.getD i 0))
              ++ List.replicate (ts.length - k) 0).set k v
            = (List.range k).map (fun i => tpCountAt logits label (ts.getD i 0))
              ++ v :: List.replicate (ts.length - (k + 1)) 0 := by
          intro v
          rw [List.set_append_right _ _ (le_of_eq hlen), hlen, Nat.sub_self,
            hrep, List.replicate_succ, List.set_cons_zero]
        rw [e1, Nat.zero_add, e2]
        simp
      · simp
  have h := key ts.length (le_refl _)
  rw [computeFROCwith, h]
  simp

/-- Characterization of the threshold sweep on a lesion-free image
(`label.max() != 255`): `TPs` stays identically zero, the lesion count is
`0`, and `FPs` is the sequential upward clamp of the per-threshold raw
8-connected region counts of the segmentation. -/
theorem computeFROCwith_nolesion {H W : Nat} {α : Type} [LinearOrderedField α]
    (ts : List α) (logits : Pos H W → α) (label : Pos H W → Nat) (r : ℚ)
    (hmax : labelMax label ≠ 255) :
    computeFROCwith ts logits label r =
      (clampFrom 0 ((List.range ts.length).map
          (fun i => rawFPAt logits label (ts.getD i 0))),
       List.replicate ts.length 0, 0) := by
  have key : ∀ k, k ≤ ts.length →
      (List.range k).foldl (frocStep ts logits label)
        (List.replicate ts.length 0, List.replicate ts.length 0, 0) =
      (clampFrom 0 ((List.range k).map
          (fun i => rawFPAt logits label (ts.getD i 0)))
         ++ List.replicate (ts.length - k) 0,
       List.replicate ts.length 0, 0) := by
    intro k
    induction k with
    | zero => intro _; simp [clampFrom]
    | succ k ih =>
      intro hk1
      have hkn : k < ts.length := hk1
      have hClen : (clampFrom 0 ((List.range k).map
          (fun i => rawFPAt logits label (ts.getD i 0)))).length = k := by
        rw [clampFrom_length]
        simp
      have hrep : ts.length - k = (ts.length - (k + 1)) + 1 := by omega
      rw [List.range_succ, List.foldl_append, ih (Nat.le_of_lt hkn),
        List.foldl_cons, List.foldl_nil,
        frocStep_nolesion ts logits label _ _ _ k hmax,
        List.map_append]
      simp only [List.map_cons, List.map_nil]
      refine congrArg₂ Prod.mk ?_ rfl
      rw [clampFrom_snoc]
      have hset : (clampFrom 0 ((List.range k).map
              (fun i => rawFPAt logits label (ts.getD i 0)))
            ++ List.replicate (ts.length - k) 0).set k
            ((clampFrom 0 ((List.range k).map
                (fun i => rawFPAt logits label (ts.getD i 0)))
              ++ List.replicate (ts.length - k) 0).getD k 0
             + rawFPAt logits label (ts.getD k 0))
          = clampFrom 0 ((List.range k).map
              (fun i => rawFPAt logits label (ts.getD i 0)))
            ++ rawFPAt logits label (ts.getD k 0)
              :: List.replicate (ts.length - (k + 1)) 0 := by
        rw [List.getD_append_right _ _ _ _ (le_of_eq hClen), hClen,
          Nat.sub_self, hrep, List.replicate_succ, List.getD_cons_zero,
          Nat.zero_add,
          List.set_append_right _ _ (le_of_eq hClen), hClen, Nat.sub_self,
          List.set_cons_zero]
      rw [hset]
      have hread_i : npGet (clampFrom 0 ((List.range k).map
              (fun i => rawFPAt logits label (ts.getD i 0)))
            ++ rawFPAt logits label (ts.getD k 0)
              :: List.replicate (ts.length - (k + 1)) 0) (k : Int)
          = rawFPAt logits label (ts.getD k 0) := by
        rw [npGet, if_neg (by omega), Int.toNat_ofNat,
          List.getD_append_right _ _ _ _ (le_of_eq hClen), hClen,
          Nat.sub_self, List.getD_cons_zero]
      rw [hread_i]
      rcases Nat.eq_zero_or_pos k with hk0 | hkpos
      · -- first threshold: the wrapped read `FPs[-1]` sees `0` (or the raw
        -- count itself when the array has one slot), so no clamp happens
        subst hk0
        simp only [List.range_zero, List.map_nil, clampFrom, List.nil_append,
          List.getLastD_nil]
        have hread_m1 : npGet (rawFPAt logits label (ts.getD 0 0)
              :: List.replicate (ts.length - (0 + 1)) 0) ((0 : Nat) - 1 : Int)
            = if ts.length = 1 then rawFPAt logits label (ts.getD 0 0)
              else 0 := by
          rw [npGet, if_pos (by omega)]
          have h2 : (-(((0 : Nat) : Int) - 1)).toNat = 1 := by omega
          rw [h2]
          have hlen2 : (rawFPAt logits label (ts.getD 0 0)
              :: List.replicate (ts.length - (0 + 1)) 0).length
              = ts.length := by
            simp
            omega
          rw [hlen2]
          by_cases h3 : ts.length = 1
          · rw [if_pos h3, h3]
            simp
          · rw [if_neg h3]
            have h4 : ts.length - 1 = (ts.length - 2) + 1 := by omega
            rw [h4, List.getD_cons_succ]
            exact getD_replicate _ _ _
        rw [hread_m1]
        have hnoclamp : ¬ (rawFPAt logits label (ts.getD 0 0) <
            if ts.length = 1 then rawFPAt logits label (ts.getD 0 0)
            else 0) := by
          by_cases h : ts.length = 1 <;> simp [h]
        rw [if_neg hnoclamp]
        have : ¬ (rawFPAt logits label (ts.getD 0 0) < 0) := by omega
        rw [if_neg this]
        rfl
      · -- later thresholds: `FPs[i-1]` is the previous clamped entry
        have hCne : clampFrom 0 ((List.range k).map
            (fun i => rawFPAt logits label (ts.getD i 0))) ≠ [] := by
          intro h
          rw [h] at hClen
          simp at hClen
          omega
        have hread_m1 : npGet (clampFrom 0 ((List.range k).map
                (fun i => rawFPAt logits label (ts.getD i 0)))
              ++ rawFPAt logits label (ts.getD k 0)
                :: List.replicate (ts.length - (k + 1)) 0) ((k : Int) - 1)
            = (clampFrom 0 ((List.range k).map
                (fun i => rawFPAt logits label (ts.getD i 0)))).getLastD 0 := by
          rw [npGet, if_neg (by omega)]
          have htn : ((k : Int) - 1).toNat = k - 1 := by omega
          rw [htn, List.getD_append _ _ _ _ (by omega), ← getD_last_index 0 hCne,
            hClen]
        rw [hread_m1]
        by_cases hcl : rawFPAt logits label (ts.getD k 0) <
            (clampFrom 0 ((List.range k).map
              (fun i => rawFPAt logits label (ts.getD i 0)))).getLastD 0
        · rw [if_pos hcl, if_pos hcl,
            List.set_append_right _ _ (le_of_eq hClen), hClen, Nat.sub_self,
            List.set_cons_zero]
          simp
        · rw [if_neg hcl, if_neg hcl]
          simp
  have h := key ts.length (le_refl _)
  rw [computeFROCwith, h]
  simp

/-- `np.linspace` produces exactly `n` samples. -/
theorem linspace_length {α : Type} [Field α] (a b : α) (n : Nat) :
    (linspace a b n).length = n := by
  unfold linspace
  by_cases h : n = 1
  · simp [h]
  · rw [if_neg h, List.length_map, List.length_range]

/-- The threshold ladder has exactly `num_thresholds` entries. -/
theorem thresholdLadder_length (n : Nat) : (thresholdLadder n).length = n := by
  rw [thresholdLadder, List.length_map, linspace_length]

/-- The logit transform is strictly monotone on `(0, 1)`. -/
theorem logit_lt_logit {p q : ℝ} (hp : 0 < p) (hpq : p < q) (hq : q < 1) :
    logit p < logit q := by
  unfold logit
  have h1 : Real.log p < Real.log q := Real.log_lt_log hp hpq
  have h2 : Real.log (1 - q) < Real.log (1 - p) :=
    Real.log_lt_log (by linarith) (by linarith)
  linarith

/-- Entry formula for the threshold ladder when `2 ≤ n`. -/
theorem thresholdLadder_getD {n i : Nat} (h2 : 2 ≤ n) (hi : i < n) :
    (thresholdLadder n).getD i 0
      = logit ((9999 : ℝ) / 10000
          + (((1 : ℝ) / 10000 - 9999 / 10000) / ((n : ℝ) - 1)) * (i : ℝ)) := by
  rw [thresholdLadder, linspace, if_neg (by omega)]
  have hb : i < (((List.range n).map (fun (j : Nat) => (9999 : ℝ) / 10000
      + (((1 : ℝ) / 10000 - 9999 / 10000) / ((n : ℝ) - 1)) * (j : ℝ))).map
        logit).length := by
    rw [List.length_map, List.length_map, List.length_range]
    exact hi
  rw [List.getD_eq_getElem _ _ hb, List.getElem_map, List.getElem_map,
    List.getElem_range]

/-- The threshold ladder is strictly decreasing: later indices carry
strictly smaller logit cutoffs. -/
theorem thresholdLadder_strictAnti {n i j : Nat} (hij : i < j) (hj : j < n) :
    (thresholdLadder n).getD j 0 < (thresholdLadder n).getD i 0 := by
  rcases Nat.lt_or_ge n 2 with hn | hn
  · exact absurd (lt_trans hij hj) (by omega)
  · have hi : i < n := lt_trans hij hj
    rw [thresholdLadder_getD hn hj, thresholdLadder_getD hn hi]
    have hn1 : (0 : ℝ) < (n : ℝ) - 1 := by
      have h2 : (2 : ℝ) ≤ (n : ℝ) := by exact_mod_cast hn
      linarith
    have hcneg : ((1 : ℝ) / 10000 - 9999 / 10000) / ((n : ℝ) - 1) < 0 :=
      div_neg_of_neg_of_pos (by norm_num) hn1
    have hcn : (((1 : ℝ) / 10000 - 9999 / 10000) / ((n : ℝ) - 1)) * ((n : ℝ) - 1)
        = (1 : ℝ) / 10000 - 9999 / 10000 :=
      div_mul_cancel₀ _ (ne_of_gt hn1)
    have hjn : (j : ℝ) ≤ (n : ℝ) - 1 := by
      have hj1 : ((j : ℝ) + 1) ≤ (n : ℝ) := by exact_mod_cast hj
      linarith
    have hi0 : (0 : ℝ) ≤ (i : ℝ) := Nat.cast_nonneg i
    have hijR : (i : ℝ) < (j : ℝ) := by exact_mod_cast hij
    have hmul_j : (((1 : ℝ) / 10000 - 9999 / 10000) / ((n : ℝ) - 1))
          * ((n : ℝ) - 1)
        ≤ (((1 : ℝ) / 10000 - 9999 / 10000) / ((n : ℝ) - 1)) * (j : ℝ) := by
      nlinarith [mul_nonneg (sub_nonneg.mpr hjn) (neg_nonneg.mpr hcneg.le)]
    have hmul_i : (((1 : ℝ) / 10000 - 9999 / 10000) / ((n : ℝ) - 1)) * (i : ℝ)
        ≤ 0 := by
      nlinarith [mul_nonneg hi0 (neg_nonneg.mpr hcneg.le)]
    have hmul_ij : (((1 : ℝ) / 10000 - 9999 / 10000) / ((n : ℝ) - 1)) * (j : ℝ)
        < (((1 : ℝ) / 10000 - 9999 / 10000) / ((n : ℝ) - 1)) * (i : ℝ) := by
      nlinarith [mul_pos (neg_pos.mpr hcneg) (sub_pos.mpr hijR)]
    refine logit_lt_logit ?_ (by linarith) (by nlinarith)
    nlinarith [hcn, hmul_j]

/-- The threshold ladder is antitone (non-strict form). -/
theorem thresholdLadder_anti {n i j : Nat} (hij : i ≤ j) (hj : j < n) :
    (thresholdLadder n).getD j 0 ≤ (thresholdLadder n).getD i 0 := by
  rcases lt_or_eq_of_le hij with h | h
  · exact le_of_lt (thresholdLadder_strictAnti h hj)
  · subst h
    exact le_refl _

/-- A segmentation pixel is `255` iff the label is nonzero there and the
logit reaches the threshold (inclusive). -/
theorem post_eq_255_iff {H W : Nat} {α : Type} [LinearOrderedField α]
    (logits : Pos H W → α) (label : Pos H W → Nat) (t : α) (p : Pos H W) :
    post logits label t p = 255 ↔ label p ≠ 0 ∧ t ≤ logits p := by
  simp only [post]
  split_ifs with h0 hle
  · simp [h0]
  · simp [h0, hle]
  · simp [h0, hle]

/-- Lowering the threshold can only grow a region's overlap area. -/
theorem overlapArea_mono {H W : Nat} {α : Type} [LinearOrderedField α]
    (logits : Pos H W → α) (label : Pos H W → Nat) {t t' : α} (h : t' ≤ t)
    (r : Finset (Pos H W)) :
    overlapArea r (post logits label t) ≤ overlapArea r (post logits label t') := by
  unfold overlapArea
  apply Finset.card_le_card
  intro x hx
  rw [Finset.mem_filter] at hx ⊢
  refine ⟨hx.1, ?_⟩
  have h255 := (post_eq_255_iff logits label t x).mp hx.2
  exact (post_eq_255_iff logits label t' x).mpr ⟨h255.1, le_trans h h255.2⟩

/-- Lowering the threshold can only increase the per-threshold TP count:
each lesion region's overlap ratio is monotone in the growing `255` set. -/
theorem tpCountAt_anti {H W : Nat} {α : Type} [LinearOrderedField α]
    (logits : Pos H W → α) (label : Pos H W → Nat) {t t' : α} (h : t' ≤ t) :
    tpCountAt logits label t ≤ tpCountAt logits label t' := by
  unfold tpCountAt
  apply List.countP_mono_left
  intro r _ hpass
  rw [ratioPass, decide_eq_true_iff] at hpass ⊢
  have ho := overlapArea_mono logits label h r
  refine le_trans hpass ?_
  rcases Nat.eq_zero_or_pos r.card with hc | hc
  · rw [hc]
    norm_num
  · have hcpos : (0 : ℚ) < (r.card : ℚ) := by exact_mod_cast hc
    apply div_le_div_of_nonneg_right ?_ hcpos.le
    exact_mod_cast ho

/-- Entries of a list of `none`s read back `none`. -/
theorem getD_map_const_none (l : List ℚ) (i : Nat) :
    (l.map (fun _ => (none : Option ℚ))).getD i none = none := by
  induction l generalizing i with
  | nil => rfl
  | cons a t ih =>
    cases i with
    | zero => rfl
    | succ i => exact ih i

/-- Vector addition of accumulators is right-commutative. -/
theorem addVec_right_comm (s x y : List ℚ) :
    addVec (addVec s x) y = addVec (addVec s y) x := by
  induction s generalizing x y with
  | nil => simp [addVec]
  | cons a s ih =>
    cases x with
    | nil => cases y <;> simp [addVec]
    | cons b x =>
      cases y with
      | nil => simp [addVec]
      | cons c y =>
        simp only [addVec, List.zipWith_cons_cons]
        rw [show a + b + c = a + c + b by ring]
        exact congrArg _ (ih x y)

/-- Folding two images into the totals commutes: every component of the
accumulator is updated by plain addition. -/
theorem accumStep_right_comm {H W : Nat} (n : Nat) (r : ℚ)
    (z : List ℚ × List ℚ × Nat × Nat)
    (x y : (Pos H W → ℝ) × (Pos H W → Nat)) :
    accumStep n r (accumStep n r z x) y
      = accumStep n r (accumStep n r z y) x := by
  simp only [accumStep]
  refine congrArg₂ Prod.mk ?_ (congrArg₂ Prod.mk ?_ (congrArg₂ Prod.mk ?_ ?_))
  · exact addVec_right_comm _ _ _
  · exact addVec_right_comm _ _ _
  · exact Nat.add_right_comm _ _ _
  · exact Nat.add_right_comm _ _ _

/-! ## Claim theorems -/

/-- C1 (code bug evidence): `compute_FROC` ignores its `acceptance_ratio`
argument and compares the overlap ratio against the module constant
`ACCEPTANCE_RATIO = 0.1`.  On a 1×2 image whose single lesion region has
area `2` and overlap `1` (ratio `1/2`), a caller-passed
`acceptance_ratio = 9/10` should reject the lesion (`1/2 < 9/10`), yet the
code reports `TPs = [1]` because `1/2 ≥ 0.1`. -/
theorem c1_acceptance_ratio_evidence :
    computeFROCwith [(0 : ℚ)] heat1x2 lab1x2 (9 / 10) = ([0], [1], 1) ∧
    ¬ ((9 : ℚ) / 10 ≤ 1 / 2) := by
  constructor
  · rw [computeFROCwith_eq_B]
    decide
  · norm_num

/-- C2: for a lesion-free image the returned `FPs` vector is exactly the
sequential upward clamp (`clampFrom 0`) of the raw per-threshold
8-connected region counts; the first threshold's count is never clamped;
and the clamp makes the vector non-decreasing for any sequence of raw
counts, in particular for the returned `FPs` itself. -/
theorem c2_fp_clamp {H W : Nat} (logits : Pos H W → ℝ) (label : Pos H W → Nat)
    (n : Nat) (r : ℚ) (hno : ¬ ∃ p, label p = 255) :
    (compute_FROC logits label n r).1
      = clampFrom 0 ((List.range n).map
          (fun i => rawFPAt logits label ((thresholdLadder n).getD i 0))) ∧
    (0 < n → (compute_FROC logits label n r).1.getD 0 0
      = rawFPAt logits label ((thresholdLadder n).getD 0 0)) ∧
    (∀ raws : List Nat, ∀ i j, i ≤ j → j < raws.length →
      (clampFrom 0 raws).getD i 0 ≤ (clampFrom 0 raws).getD j 0) ∧
    (∀ i j, i ≤ j → j < n →
      (compute_FROC logits label n r).1.getD i 0
        ≤ (compute_FROC logits label n r).1.getD j 0) := by
  have hmax := labelMax_ne_255 hno
  have hlen := thresholdLadder_length n
  have hFPs : (compute_FROC logits label n r).1
      = clampFrom 0 ((List.range n).map
          (fun i => rawFPAt logits label ((thresholdLadder n).getD i 0))) := by
    rw [compute_FROC, computeFROCwith_nolesion _ _ _ _ hmax, hlen]
  refine ⟨hFPs, ?_, ?_, ?_⟩
  · intro hn
    rw [hFPs, clampFrom_zero_getD_zero, getD_range_map _ hn]
  · intro raws i j hij hj
    exact clampFrom_getD_mono 0 raws hij (by rwa [clampFrom_length])
  · intro i j hij hj
    rw [hFPs]
    refine clampFrom_getD_mono 0 _ hij ?_
    rw [clampFrom_length]
    simpa using hj

/-- C2 witness at a concrete lesion-free 1×1 image with one threshold. -/
theorem c2_fp_clamp_witness :
    (compute_FROC (fun _ => (0 : ℝ)) ((fun _ => 0) : Pos 1 1 → Nat) 1
        (1 / 10)).1
      = clampFrom 0 ((List.range 1).map
          (fun i => rawFPAt (fun _ => (0 : ℝ)) ((fun _ => 0) : Pos 1 1 → Nat)
            ((thresholdLadder 1).getD i 0))) :=
  (c2_fp_clamp (fun _ => (0 : ℝ)) ((fun _ => 0) : Pos 1 1 → Nat) 1 (1 / 10)
    (by decide)).1

/-- C3: the segmentation assigns `0` wherever the label is `0` regardless
of the logit, `255` wherever the logit reaches the threshold (inclusive)
and the label is nonzero, and `127` at every other pixel. -/
theorem c3_segmenter {H W : Nat} {α : Type} [LinearOrderedField α]
    (logits : Pos H W → α) (label : Pos H W → Nat) (t : α) (p : Pos H W) :
    (label p = 0 → post logits label t p = 0) ∧
    (label p ≠ 0 → t ≤ logits p → post logits label t p = 255) ∧
    (label p ≠ 0 → logits p < t → post logits label t p = 127) := by
  refine ⟨fun h0 => ?_, fun hne hle => ?_, fun hne hlt => ?_⟩ <;>
    simp only [post]
  · rw [if_pos h0]
  · rw [if_neg hne, if_pos hle]
  · rw [if_neg hne, if_neg (not_le.mpr hlt)]

/-- C3 witness: the three segmentation cases at concrete 1×1 inputs. -/
theorem c3_segmenter_witness :
    post (fun _ => (1 : ℚ)) ((fun _ => 0) : Pos 1 1 → Nat) 0 (0, 0) = 0 ∧
    post (fun _ => (1 : ℚ)) ((fun _ => 7) : Pos 1 1 → Nat) 0 (0, 0) = 255 ∧
    post (fun _ => (0 : ℚ)) ((fun _ => 7) : Pos 1 1 → Nat) 1 (0, 0) = 127 :=
  ⟨(c3_segmenter _ _ _ _).1 rfl,
   (c3_segmenter _ _ _ _).2.1 (by decide) (by decide),
   (c3_segmenter _ _ _ _).2.2 (by decide) (by decide)⟩

/-- C4: for every positive `num_thresholds` the logit ladder
`linspace(0.9999, 0.0001, n)` mapped through `logit` has exactly `n`
entries and is strictly decreasing: index 0 is the strictest (highest)
cutoff and later indices are progressively more permissive. -/
theorem c4_threshold_ladder (n : Nat) (hn : 0 < n) :
    (thresholdLadder n).length = n ∧
    ∀ i j, i < j → j < n →
      (thresholdLadder n).getD j 0 < (thresholdLadder n).getD i 0 :=
  ⟨thresholdLadder_length n,
   fun _ _ hij hj => thresholdLadder_strictAnti hij hj⟩

/-- C4 witness at `num_thresholds = 3`. -/
theorem c4_threshold_ladder_witness : (thresholdLadder 3).length = 3 :=
  (c4_threshold_ladder 3 (by decide)).1

/-- C5: a lesion-bearing image (uint8 label containing a `255` pixel) has
`FPs` identically zero; a lesion-free image has `TPs` identically zero and
lesion count `0`. -/
theorem c5_branch_invariant {H W : Nat} (logits : Pos H W → ℝ)
    (label : Pos H W → Nat) (n : Nat) (r : ℚ) :
    ((∀ p, label p ≤ 255) → (∃ p, label p = 255) →
      (compute_FROC logits label n r).1 = List.replicate n 0) ∧
    ((¬ ∃ p, label p = 255) →
      (compute_FROC logits label n r).2.1 = List.replicate n 0 ∧
      (compute_FROC logits label n r).2.2 = 0) := by
  constructor
  · intro hle hex
    rw [compute_FROC,
      computeFROCwith_lesion _ _ _ _ (labelMax_eq_255 hle hex),
      thresholdLadder_length]
  · intro hno
    rw [compute_FROC,
      computeFROCwith_nolesion _ _ _ _ (labelMax_ne_255 hno),
      thresholdLadder_length]
    exact ⟨rfl, rfl⟩

/-- C5 witness: both branches at concrete 1×1 images. -/
theorem c5_branch_invariant_witness :
    (compute_FROC (fun _ => (0 : ℝ)) ((fun _ => 255) : Pos 1 1 → Nat) 1
        (1 / 10)).1 = List.replicate 1 0 ∧
    ((compute_FROC (fun _ => (0 : ℝ)) ((fun _ => 0) : Pos 1 1 → Nat) 1
        (1 / 10)).2.1 = List.replicate 1 0 ∧
     (compute_FROC (fun _ => (0 : ℝ)) ((fun _ => 0) : Pos 1 1 → Nat) 1
        (1 / 10)).2.2 = 0) :=
  ⟨(c5_branch_invariant _ _ 1 _).1 (by decide) (by decide),
   (c5_branch_invariant _ _ 1 _).2 (by decide)⟩

/-- C6 counterexample: the finalization of `main` is an unconditional
division; on degenerate totals it silently produces the NaN/Inf marker
`none` (numpy's coerced undefined quotient) instead of reporting a
distinct, explicit failure.  First conjunct: zero total lesions makes the
sensitivity vector `[none]`; second: zero normal images makes the
FP-per-image vector `[none]`. -/
theorem c6_degenerate_counterexample :
    (finalizeTotals ([(1 : ℚ)], [(1 : ℚ)], 0, 1)).1 = [none] ∧
    (finalizeTotals ([(1 : ℚ)], [(1 : ℚ)], 1, 0)).2 = [none] := by
  exact ⟨rfl, rfl⟩

/-- C6 (amended): with zero total lesions every sensitivity entry is the
silent NaN/Inf marker `none`, and with zero normal images every
FP-per-image entry is; no explicit failure is ever raised — the
finalization is a total function on the accumulated totals. -/
theorem c6_degenerate_amended (st : List ℚ × List ℚ × Nat × Nat) (i : Nat) :
    (st.2.2.1 = 0 → (finalizeTotals st).1.getD i none = none) ∧
    (st.2.2.2 = 0 → (finalizeTotals st).2.getD i none = none) := by
  constructor
  · intro h
    have hfun : (fun x => npDiv x st.2.2.1) = fun _ => (none : Option ℚ) := by
      funext x
      rw [h, npDiv, if_pos rfl]
    simp only [finalizeTotals, hfun]
    exact getD_map_const_none _ _
  · intro h
    have hfun : (fun x => npDiv x st.2.2.2) = fun _ => (none : Option ℚ) := by
      funext x
      rw [h, npDiv, if_pos rfl]
    simp only [finalizeTotals, hfun]
    exact getD_map_const_none _ _

/-- C6 amended witness at concrete degenerate totals. -/
theorem c6_degenerate_amended_witness :
    (finalizeTotals ([(1 : ℚ)], [(1 : ℚ)], 0, 0)).1.getD 0 none = none ∧
    (finalizeTotals ([(1 : ℚ)], [(1 : ℚ)], 0, 0)).2.getD 0 none = none :=
  ⟨(c6_degenerate_amended _ 0).1 rfl, (c6_degenerate_amended _ 0).2 rfl⟩

set_option maxHeartbeats 4000000 in
set_option maxRecDepth 100000 in
/-- C7: on a 10×10 image whose label is one 8-connected lesion region of
area `100`, with acceptance ratio `0.1`: a segmentation overlapping the
region in `9` pixels yields `TPs = [0]` at that threshold (ratio
`0.09 < 0.1`), and one overlapping in `10` pixels yields `TPs = [1]`
(ratio exactly `0.1`, inclusive boundary). -/
theorem c7_overlap_boundary :
    computeFROCwith [(1 : ℚ)] heat9 lab10x10 (1 / 10) = ([0], [0], 1) ∧
    computeFROCwith [(1 : ℚ)] heat10 lab10x10 (1 / 10) = ([0], [1], 1) := by
  constructor <;> (rw [computeFROCwith_eq_B]; decide)

/-- C8: the dataset totals are a fold by componentwise addition, so any
permutation of the image list — in particular the reversed list — yields
identical accumulated totals and hence identical finalized sensitivity
and FP-per-image vectors. -/
theorem c8_aggregation_perm {H W : Nat} (n : Nat) (r : ℚ)
    (ds ds' : List ((Pos H W → ℝ) × (Pos H W → Nat))) (hperm : ds.Perm ds') :
    accumulate n r ds' = accumulate n r ds ∧
    accumulate n r ds.reverse = accumulate n r ds ∧
    finalizeTotals (accumulate n r ds') = finalizeTotals (accumulate n r ds) ∧
    finalizeTotals (accumulate n r ds.reverse)
      = finalizeTotals (accumulate n r ds) := by
  have hcomm : ∀ x ∈ ds, ∀ y ∈ ds, ∀ z,
      accumStep n r (accumStep n r z x) y
        = accumStep n r (accumStep n r z y) x :=
    fun x _ y _ z => accumStep_right_comm n r z x y
  have h1 : accumulate n r ds' = accumulate n r ds :=
    (hperm.foldl_eq' hcomm _).symm
  have h2 : accumulate n r ds.reverse = accumulate n r ds := by
    have hrev : ds.Perm ds.reverse := (List.reverse_perm ds).symm
    have hcomm' : ∀ x ∈ ds, ∀ y ∈ ds, ∀ z,
        accumStep n r (accumStep n r z x) y
          = accumStep n r (accumStep n r z y) x := hcomm
    exact (hrev.foldl_eq' hcomm' _).symm
  exact ⟨h1, h2, congrArg _ h1, congrArg _ h2⟩

/-- C8 witness: swapping a concrete two-image dataset leaves the
accumulated totals unchanged. -/
theorem c8_aggregation_perm_witness :
    accumulate 1 (1 / 10) [imgNormal, imgLesion]
      = accumulate 1 (1 / 10) [imgLesion, imgNormal] :=
  (c8_aggregation_perm 1 (1 / 10) [imgLesion, imgNormal]
    [imgNormal, imgLesion] (List.Perm.swap imgNormal imgLesion [])).1

/-- C9: `compute_FROC` returns identical `(FPs, TPs, num_lesions)` for any
two values of its `acceptance_ratio` argument — the parameter is dead; the
true-positive test reads the module constant `ACCEPTANCE_RATIO = 0.1`
instead (the equation holds definitionally). -/
theorem c9_acceptance_ratio_ignored {H W : Nat} (logits : Pos H W → ℝ)
    (label : Pos H W → Nat) (n : Nat) (r1 r2 : ℚ) :
    compute_FROC logits label n r1 = compute_FROC logits label n r2 := rfl

/-- C10: for a lesion-bearing image with label values in `{0, 255}`, the
returned `TPs` vector is non-decreasing in the threshold index: the ladder
cutoffs strictly decrease, each region's overlap only grows, and the
inclusive ratio test is preserved. -/
theorem c10_tp_monotone {H W : Nat} (logits : Pos H W → ℝ)
    (label : Pos H W → Nat) (n : Nat) (r : ℚ)
    (hvals : ∀ p, label p = 0 ∨ label p = 255) (hex : ∃ p, label p = 255)
    {i j : Nat} (hij : i ≤ j) (hj : j < n) :
    (compute_FROC logits label n r).2.1.getD i 0
      ≤ (compute_FROC logits label n r).2.1.getD j 0 := by
  have hle : ∀ p, label p ≤ 255 := fun p => by
    rcases hvals p with h | h <;> omega
  have hmax := labelMax_eq_255 hle hex
  have hlen := thresholdLadder_length n
  have hi : i < n := lt_of_le_of_lt hij hj
  have hTPs : ∀ m, m < n → (compute_FROC logits label n r).2.1.getD m 0
      = tpCountAt logits label ((thresholdLadder n).getD m 0) := by
    intro m hm
    rw [compute_FROC, computeFROCwith_lesion _ _ _ _ hmax, hlen]
    exact getD_range_map _ hm
  rw [hTPs i hi, hTPs j hj]
  exact tpCountAt_anti logits label (thresholdLadder_anti hij hj)

/-- C10 witness at a concrete lesion-bearing 1×1 image. -/
theorem c10_tp_monotone_witness :
    (compute_FROC (fun _ => (0 : ℝ)) ((fun _ => 255) : Pos 1 1 → Nat) 1
        (1 / 10)).2.1.getD 0 0
      ≤ (compute_FROC (fun _ => (0 : ℝ)) ((fun _ => 255) : Pos 1 1 → Nat) 1
        (1 / 10)).2.1.getD 0 0 :=
  c10_tp_monotone _ _ 1 (1 / 10) (by decide) (by decide) (le_refl 0)
    (by decide)

end Froc
